import Mathlib

/-!
Verification development for the felics lossless image codec.

The codec is embedded shallowly: the bit stream is a `List Bool` (one entry
per wire bit, in emission order), writers are pure functions producing bit
lists, and readers are functions consuming a prefix of a bit list and
returning `Option`/sum results.  Rust panics (failed `assert!`, `unwrap`,
`expect`, arithmetic overflow in checked positions) are modelled as `none`
or as a dedicated `panicked` constructor; I/O end-of-stream is modelled by
`none` on the reader primitives and surfaces as an `ioError` value, exactly
as `bitstream_io`'s `UnexpectedEof` is converted through
`From<io::Error> for DecompressionError`.

Unless noted otherwise every definition is a direct translation of the
corresponding item in the repository sources (`src/compression.rs`,
`src/coding/rice_coding.rs`, `src/coding/phase_in_coding.rs`,
`src/compression/parameter_selection.rs`, `src/compression/color_transform.rs`,
`src/compression/misc/mod.rs`, `src/compression/error.rs`,
`src/compression/traits.rs`, `src/compression/format.rs`).
-/

namespace Felics

/-! ## Bit-stream primitives

Model of the `bitstream_io` `BitWriter`/`BitReader` with `BigEndian`
endianness, as used by `compression.rs`: within a multi-bit field the most
significant bit is emitted first; `write_unary0` emits `q` one-bits followed
by a zero bit; `write_signed(32, v)` emits the 32-bit two's complement of
`v`, most significant bit first.  Reading mirrors writing; reading past the
end of the stream is `none` (the library's `UnexpectedEof` I/O error). -/

/-- Model of `BitWrite::write(w, v)` (BigEndian): the low `w` bits of `v`,
most significant first.  At every call site in the codec the written value
is provably `< 2^w`, matching the library's precondition. -/
def writeBits : Nat → Nat → List Bool
  | 0, _ => []
  | w + 1, v => v.testBit w :: writeBits w v

/-- Model of `BitRead::read(w)` (BigEndian): consume `w` bits, most
significant first. -/
def readBits : Nat → List Bool → Option (Nat × List Bool)
  | 0, s => some (0, s)
  | _ + 1, [] => none
  | w + 1, b :: s => (readBits w s).map (fun p => (2 ^ w * b.toNat + p.1, p.2))

/-- Model of `BitRead::read_bit`. -/
def readBit : List Bool → Option (Bool × List Bool)
  | [] => none
  | b :: s => some (b, s)

/-- Model of `BitWrite::write_unary0(q)`: `q` one-bits then a zero bit. -/
def writeUnary (q : Nat) : List Bool := List.replicate q true ++ [false]

/-- Model of `BitRead::read_unary0`: count one-bits up to the next zero bit. -/
def readUnary : List Bool → Option (Nat × List Bool)
  | [] => none
  | false :: s => some (0, s)
  | true :: s => (readUnary s).map (fun p => (p.1 + 1, p.2))

/-- Model of `BitWrite::write_signed(32, v)` (BigEndian): 32-bit two's
complement, most significant bit first. -/
def writeSigned32 (v : Int) : List Bool := writeBits 32 (v % 2 ^ 32).toNat

/-- Model of `BitRead::read_signed(32)` (BigEndian). -/
def readSigned32 (s : List Bool) : Option (Int × List Bool) :=
  (readBits 32 s).map
    (fun p => (if p.1 < 2 ^ 31 then (p.1 : Int) else (p.1 : Int) - 2 ^ 32, p.2))

theorem writeBits_length (w v : Nat) : (writeBits w v).length = w := by
  induction w generalizing v with
  | zero => rfl
  | succ w ih => simp [writeBits, ih]

theorem readBits_writeBits (w v : Nat) (rest : List Bool) :
    readBits w (writeBits w v ++ rest) = some (v % 2 ^ w, rest) := by
  induction w generalizing v with
  | zero => simp [writeBits, readBits, Nat.mod_one]
  | succ w ih =>
    have hbit : (v.testBit w).toNat = v / 2 ^ w % 2 := by
      rw [Nat.testBit_to_div_mod]
      rcases Nat.mod_two_eq_zero_or_one (v / 2 ^ w) with h | h <;> simp [h]
    have hmod : v % 2 ^ (w + 1) = 2 ^ w * (v / 2 ^ w % 2) + v % 2 ^ w := by
      rw [pow_succ, Nat.mod_mul]
      ring
    show readBits (w + 1) ((v.testBit w :: writeBits w v) ++ rest) = _
    rw [List.cons_append]
    simp only [readBits]
    rw [ih, Option.map_some', hbit, ← hmod]

theorem readBits_writeBits_of_lt {w v : Nat} (h : v < 2 ^ w) (rest : List Bool) :
    readBits w (writeBits w v ++ rest) = some (v, rest) := by
  rw [readBits_writeBits, Nat.mod_eq_of_lt h]

theorem readUnary_writeUnary (q : Nat) (rest : List Bool) :
    readUnary (writeUnary q ++ rest) = some (q, rest) := by
  induction q with
  | zero => simp [writeUnary, readUnary]
  | succ q ih =>
    have ih' : readUnary (List.replicate q true ++ false :: rest) = some (q, rest) := by
      simpa [writeUnary, List.append_assoc] using ih
    simp [writeUnary, List.replicate_succ, readUnary, ih']

theorem readSigned32_writeSigned32 {v : Int} (h1 : -(2 ^ 31) ≤ v) (h2 : v < 2 ^ 31)
    (rest : List Bool) :
    readSigned32 (writeSigned32 v ++ rest) = some (v, rest) := by
  have h0 : (0 : Int) ≤ v % 2 ^ 32 := Int.emod_nonneg v (by norm_num)
  have hub : v % 2 ^ 32 < 2 ^ 32 := Int.emod_lt_of_pos v (by norm_num)
  have hlt : (v % 2 ^ 32).toNat < 2 ^ 32 := by omega
  unfold readSigned32 writeSigned32
  rw [readBits_writeBits_of_lt hlt, Option.map_some']
  rcases le_or_lt 0 v with hv | hv
  · have hmod : v % 2 ^ 32 = v := Int.emod_eq_of_lt hv (by omega)
    have hn : (((v % 2 ^ 32).toNat : Int)) = v := by omega
    have hvn : (v % 2 ^ 32).toNat < 2 ^ 31 := by omega
    rw [if_pos hvn, hn]
  · have hmod : v % 2 ^ 32 = v + 2 ^ 32 := by
      have h := Int.add_mul_emod_self_left (a := v) (b := 2 ^ 32) (c := 1)
      rw [mul_one] at h
      rw [← h, Int.emod_eq_of_lt (by omega) (by omega)]
    have hge : ¬ (v % 2 ^ 32).toNat < 2 ^ 31 := by omega
    have hn : (((v % 2 ^ 32).toNat : Int)) - 2 ^ 32 = v := by omega
    rw [if_neg hge, hn]

/-! ## RiceCoder (`src/coding/rice_coding.rs`)

`RiceCoder::new(k)` computes `m = 1u32.checked_shl(k).expect(..)`, panicking
for `k > 31`; we model construction as an `Option`.  `encode` writes the
quotient `n >> k` in unary then the low `k` bits of `n`; `code_length`
returns `(n >> k) + 1 + k` as a `u32` (we keep the `% 2 ^ 32` wrap of the
release-mode `u32` addition, which is invisible at all bounds appearing in
the claims).  `decode` reads a unary quotient and a `k`-bit remainder and
computes `quotient.checked_mul(m).unwrap() + remainder`: end-of-stream is an
I/O error, while quotient overflow is a panic (`unwrap`), not an error. -/

structure RiceCoder where
  k : Nat
  deriving DecidableEq

/-- Model of `RiceCoder::new`: `1u32.checked_shl(k)` is `None` for `k > 31`,
so construction panics there. -/
def RiceCoder.new (k : Nat) : Option RiceCoder :=
  if k ≤ 31 then some ⟨k⟩ else none

/-- Model of `RiceCoder::encode`: unary quotient, then `k`-bit remainder. -/
def RiceCoder.encode (c : RiceCoder) (n : Nat) : List Bool :=
  writeUnary (n / 2 ^ c.k) ++ writeBits c.k (n % 2 ^ c.k)

/-- Model of `RiceCoder::code_length`: `(number >> k) + 1 + k` in `u32`
arithmetic. -/
def RiceCoder.code_length (c : RiceCoder) (n : Nat) : Nat :=
  (n / 2 ^ c.k + 1 + c.k) % 2 ^ 32

/-- Result of `RiceCoder::decode`: success, end-of-stream (an I/O error in
the caller), or the `checked_mul(..).unwrap()` panic on quotient overflow. -/
inductive RiceResult where
  | ok (n : Nat) (rest : List Bool)
  | eof
  | panicOverflow
  deriving DecidableEq

/-- Model of `RiceCoder::decode`. -/
def RiceCoder.decode (c : RiceCoder) (s : List Bool) : RiceResult :=
  match readUnary s with
  | none => .eof
  | some (q, s1) =>
    match readBits c.k s1 with
    | none => .eof
    | some (r, s2) =>
      if q * 2 ^ c.k < 2 ^ 32 then .ok (q * 2 ^ c.k + r) s2 else .panicOverflow

theorem RiceCoder.encode_length (c : RiceCoder) (n : Nat) :
    (c.encode n).length = n / 2 ^ c.k + 1 + c.k := by
  simp [RiceCoder.encode, writeUnary, writeBits_length]
  omega

theorem RiceCoder.decode_encode_ok (c : RiceCoder) {n : Nat} (h : n < 2 ^ 32)
    (rest : List Bool) : c.decode (c.encode n ++ rest) = .ok n rest := by
  have hq : n / 2 ^ c.k * 2 ^ c.k ≤ n := Nat.div_mul_le_self n (2 ^ c.k)
  have hrem : n % 2 ^ c.k < 2 ^ c.k := Nat.mod_lt n (by positivity)
  unfold RiceCoder.decode RiceCoder.encode
  rw [List.append_assoc, readUnary_writeUnary]
  simp only [readBits_writeBits_of_lt hrem]
  rw [if_pos (by omega), Nat.div_add_mod' n (2 ^ c.k)]

/-! ## PhaseInCoder (`src/coding/phase_in_coding.rs`)

`PhaseInCoder::new(n)` panics for `n = 0` (`checked_ilog2().expect`) and for
`n ≥ 2^31` (`1u32.checked_shl(m + 1).expect`); both are modelled by `none`.
`m = ilog2 n = Nat.log2 n`, `left_p = n - 2^m`, `right_p = 2^(m+1) - n`.
Encoding rotates the value right by `left_p` positions, then emits either a
short `m`-bit codeword or an `m`-bit field plus one bit.  Decoding mirrors
this and rotates left. -/

structure PhaseInCoder where
  n : Nat
  m : Nat
  left_p : Nat
  right_p : Nat
  deriving DecidableEq

/-- Model of `PhaseInCoder::new`. -/
def PhaseInCoder.new (n : Nat) : Option PhaseInCoder :=
  if n = 0 then none
  else if 2 ^ 31 ≤ n then none
  else some ⟨n, Nat.log2 n, n - 2 ^ Nat.log2 n, 2 ^ (Nat.log2 n + 1) - n⟩

/-- Model of `PhaseInCoder::rotate_right`:
`(number + self.n - self.left_p) % self.n`. -/
def PhaseInCoder.rotate_right (c : PhaseInCoder) (number : Nat) : Nat :=
  (number + c.n - c.left_p) % c.n

/-- Model of `PhaseInCoder::rotate_left`: `(number + self.left_p) % self.n`. -/
def PhaseInCoder.rotate_left (c : PhaseInCoder) (number : Nat) : Nat :=
  (number + c.left_p) % c.n

/-- Model of `PhaseInCoder::encode`; `none` is the `assert!(number < self.n)`
panic. -/
def PhaseInCoder.encode (c : PhaseInCoder) (number : Nat) : Option (List Bool) :=
  if number < c.n then
    let number := c.rotate_right number
    if number < c.right_p then
      some (writeBits c.m number)
    else
      let pair := (number - c.right_p) / 2
      let last_bit := (number - c.right_p) % 2
      some (writeBits c.m (pair + c.right_p) ++ [last_bit == 1])
  else none

/-- Model of `PhaseInCoder::decode`; `none` is an end-of-stream I/O error. -/
def PhaseInCoder.decode (c : PhaseInCoder) (s : List Bool) : Option (Nat × List Bool) :=
  match readBits c.m s with
  | none => none
  | some (first_m, s1) =>
    if first_m < c.right_p then some (c.rotate_left first_m, s1)
    else
      match readBit s1 with
      | none => none
      | some (b, s2) =>
        let number := (first_m - c.right_p) * 2 + c.right_p + (if b then 1 else 0)
        some (c.rotate_left number, s2)

theorem PhaseInCoder.new_eq {n : Nat} (h0 : n ≠ 0) (h31 : n < 2 ^ 31) :
    PhaseInCoder.new n =
      some ⟨n, Nat.log2 n, n - 2 ^ Nat.log2 n, 2 ^ (Nat.log2 n + 1) - n⟩ := by
  unfold PhaseInCoder.new
  rw [if_neg h0, if_neg (by omega)]

theorem Nat.log2_bounds {n : Nat} (h0 : n ≠ 0) :
    2 ^ Nat.log2 n ≤ n ∧ n < 2 ^ (Nat.log2 n + 1) := by
  rw [Nat.log2_eq_log_two]
  exact ⟨Nat.pow_log_le_self 2 h0, Nat.lt_pow_succ_log_self (by norm_num) n⟩

/-- The `rotate_left`/`rotate_right` pair of `PhaseInCoder` is inverse on
`[0, n-1]`. -/
theorem PhaseInCoder.rotate_left_rotate_right {n : Nat} (h0 : n ≠ 0) (h31 : n < 2 ^ 31)
    {c : PhaseInCoder} (hc : PhaseInCoder.new n = some c) {x : Nat} (hx : x < n) :
    c.rotate_left (c.rotate_right x) = x := by
  rw [PhaseInCoder.new_eq h0 h31] at hc
  obtain ⟨hl, _⟩ := Nat.log2_bounds h0
  cases hc
  unfold PhaseInCoder.rotate_left PhaseInCoder.rotate_right
  simp only
  rw [Nat.mod_add_mod]
  have harg : x + n - (n - 2 ^ Nat.log2 n) + (n - 2 ^ Nat.log2 n) = x + n := by omega
  rw [harg, Nat.add_mod_right, Nat.mod_eq_of_lt hx]

/-- Decoding a phase-in codeword restores the encoded value and consumes
exactly the codeword. -/
theorem PhaseInCoder.decode_encode_some {n : Nat} (h0 : n ≠ 0) (h31 : n < 2 ^ 31)
    {c : PhaseInCoder} (hc : PhaseInCoder.new n = some c) {x : Nat} (hx : x < n)
    {bits : List Bool} (hb : c.encode x = some bits) (rest : List Bool) :
    c.decode (bits ++ rest) = some (x, rest) := by
  have hrot := PhaseInCoder.rotate_left_rotate_right h0 h31 hc hx
  rw [PhaseInCoder.new_eq h0 h31] at hc
  obtain ⟨hl, hu⟩ := Nat.log2_bounds h0
  cases hc
  unfold PhaseInCoder.encode at hb
  rw [if_pos hx] at hb
  simp only at hb hrot
  have hx'n :
      PhaseInCoder.rotate_right
        ⟨n, Nat.log2 n, n - 2 ^ Nat.log2 n, 2 ^ (Nat.log2 n + 1) - n⟩ x < n := by
    have hpos : 0 < n := by omega
    exact Nat.mod_lt _ hpos
  generalize hgen :
      PhaseInCoder.rotate_right
        ⟨n, Nat.log2 n, n - 2 ^ Nat.log2 n, 2 ^ (Nat.log2 n + 1) - n⟩ x = x'
    at hb hrot hx'n
  have h2m : 2 ^ (Nat.log2 n + 1) = 2 ^ Nat.log2 n + 2 ^ Nat.log2 n := by ring
  by_cases hshort : x' < 2 ^ (Nat.log2 n + 1) - n
  · rw [if_pos hshort] at hb
    cases hb
    have hfit : x' < 2 ^ Nat.log2 n := by omega
    unfold PhaseInCoder.decode
    simp only [readBits_writeBits_of_lt hfit]
    rw [if_pos hshort, hrot]
  · rw [if_neg hshort] at hb
    cases hb
    have hfit :
        (x' - (2 ^ (Nat.log2 n + 1) - n)) / 2 + (2 ^ (Nat.log2 n + 1) - n) <
          2 ^ Nat.log2 n := by omega
    unfold PhaseInCoder.decode
    rw [List.append_assoc]
    simp only [readBits_writeBits_of_lt hfit]
    rw [if_neg (by omega)]
    simp only [readBit, List.singleton_append]
    have hlb := Nat.mod_two_eq_zero_or_one (x' - (2 ^ (Nat.log2 n + 1) - n))
    have hnum :
        ((x' - (2 ^ (Nat.log2 n + 1) - n)) / 2 + (2 ^ (Nat.log2 n + 1) - n) -
              (2 ^ (Nat.log2 n + 1) - n)) * 2 +
            (2 ^ (Nat.log2 n + 1) - n) +
            (if ((x' - (2 ^ (Nat.log2 n + 1) - n)) % 2 == 1) then 1 else 0) = x' := by
      rcases hlb with hlb | hlb <;> rw [hlb] <;> simp <;> omega
    rw [hnum, hrot]

/-! ## Intensity indicator codes (`src/compression.rs`, `encode_intensity` /
`decode_intensity`): InRange `1`, AboveRange `01`, BelowRange `00`. -/

inductive PixelIntensity where
  | inRange
  | belowRange
  | aboveRange
  deriving DecidableEq

/-- Model of `encode_intensity`. -/
def encode_intensity : PixelIntensity → List Bool
  | .inRange => [true]
  | .aboveRange => [false, true]
  | .belowRange => [false, false]

/-- Model of `decode_intensity`; `none` is an end-of-stream I/O error. -/
def decode_intensity (s : List Bool) : Option (PixelIntensity × List Bool) :=
  match readBit s with
  | none => none
  | some (true, s1) => some (.inRange, s1)
  | some (false, s1) =>
    match readBit s1 with
    | none => none
    | some (true, s2) => some (.aboveRange, s2)
    | some (false, s2) => some (.belowRange, s2)

theorem decode_encode_intensity (i : PixelIntensity) (rest : List Bool) :
    decode_intensity (encode_intensity i ++ rest) = some (i, rest) := by
  cases i <;> rfl

/-! ## KEstimator (`src/compression/parameter_selection.rs`)

The estimator keeps, for every context in `0..=max_context` (note: the
constructor allocates `max_context + 1` rows), the cumulative Rice code
length each candidate `k` would have produced.  Both `update` and `get_k`
begin with `assert!(context < self.max_context)` — a strict comparison —
modelled as `none` (panic) when the assertion fails.  Additions into the
table are `u32` additions; we keep the release-mode `% 2 ^ 32` wrap. -/

structure KEstimator where
  max_context : Nat
  k_values : List Nat
  context_map : List (List Nat)
  halve_at : Option Nat
  deriving DecidableEq

/-- Model of `KEstimator::new`; `none` is the panic on an empty `k_values`
list.  The table has one row per context in `0..=max_context`. -/
def KEstimator.new (max_context : Nat) (k_values : List Nat) (halve_at : Option Nat) :
    Option KEstimator :=
  if k_values = [] then none
  else
    some ⟨max_context, k_values,
      List.replicate (max_context + 1) (List.replicate k_values.length 0), halve_at⟩

/-- One row update of `KEstimator::update`: add each candidate's exact code
length (`u32` add), then halve the whole row if the configured threshold is
exceeded by the row minimum.  `RiceCoder::new(k)` inside the loop requires
`k ≤ 31`, which holds for every per-type candidate list. -/
def KEstimator.updated_row (k_values row : List Nat) (encoded : Nat)
    (halve_at : Option Nat) : List Nat :=
  let row' := (List.zip row k_values).map
    (fun p => (p.1 + RiceCoder.code_length ⟨p.2⟩ encoded) % 2 ^ 32)
  match halve_at with
  | none => row'
  | some t =>
    match row'.min? with
    | none => row'
    | some mv => if t < mv then row'.map (fun v => v / 2) else row'

/-- Model of `KEstimator::update`; `none` is the
`assert!(context < self.max_context)` panic. -/
def KEstimator.update (e : KEstimator) (context encoded : Nat) : Option KEstimator :=
  if context < e.max_context then
    some { e with
      context_map := e.context_map.set context
        (KEstimator.updated_row e.k_values (e.context_map.getD context [])
          encoded e.halve_at) }
  else none

/-- The selection loop of `KEstimator::get_k`: first index of the strictly
smallest entry, starting from `best = 0`, `smallest = u32::MAX`. -/
def kArgminAux : List Nat → Nat → Nat → Nat → Nat
  | [], _, best, _ => best
  | c :: cs, i, best, smallest =>
    if c < smallest then kArgminAux cs (i + 1) i c
    else kArgminAux cs (i + 1) best smallest

/-- Model of `KEstimator::get_k`; `none` is the
`assert!(context < self.max_context)` panic. -/
def KEstimator.get_k (e : KEstimator) (context : Nat) : Option Nat :=
  if context < e.max_context then
    some (e.k_values.getD (kArgminAux (e.context_map.getD context []) 0 0 (2 ^ 32 - 1)) 0)
  else none

/-! ## Per-type coding parameters

`compression.rs` builds a `CodingOptions` record from the `Intensity`
constants of the pixel type (`src/compression/traits.rs`): for `u8`
`K_VALUES = [0,1,2,3,4,5]` and `MAX_CONTEXT = u8::MAX = 255`; for `u16`
`K_VALUES = [0,...,14]` and `MAX_CONTEXT = u16::MAX = 65535`; the count
scaling threshold is 1024 for both, passed as
`periodic_count_scaling: Option<u32>`.  The same options are used by the
`Luma<T>` and the `Rgb<T>` (YCoCg) compression paths. -/

structure CodingOptions where
  max_context : Nat
  k_values : List Nat
  periodic_count_scaling : Option Nat
  deriving DecidableEq

/-- Options for 8-bit pixels (`impl Intensity for u8`). -/
def u8Options : CodingOptions := ⟨255, [0, 1, 2, 3, 4, 5], some 1024⟩

/-- Options for 16-bit pixels (`impl Intensity for u16`). -/
def u16Options : CodingOptions :=
  ⟨65535, [0, 1, 2, 3, 4, 5, 6, 7, 8, 9, 10, 11, 12, 13, 14], some 1024⟩

/-! ## Color transform (`src/compression/color_transform.rs`)

Rust's `/` on `i32` truncates toward zero, which is `Int.tdiv`.  For all
inputs in `[0, 2^16 - 1]` every intermediate stays far inside the `i32`
range, so plain `Int` arithmetic is faithful on the claimed domain. -/

/-- Model of `rgb_to_ycocg`. -/
def rgb_to_ycocg (r g b : Int) : Int × Int × Int :=
  let co := r - b
  let t := b + Int.tdiv co 2
  let cg := g - t
  let y := t + Int.tdiv cg 2
  (y, co, cg)

/-- Model of `ycocg_to_rgb`. -/
def ycocg_to_rgb (y co cg : Int) : Int × Int × Int :=
  let t := y - Int.tdiv cg 2
  let g := cg + t
  let b := t - Int.tdiv co 2
  let r := b + co
  (r, g, b)

/-! ## Decompression errors (`src/compression/error.rs`)

The enum has exactly these variants; the `io::Error` payload of `IoError` is
dropped.  Reaching end-of-stream surfaces as `ioError` through
`From<io::Error> for DecompressionError`: the enum has no `Truncated`
variant. -/

inductive DecompressionError where
  | ioError
  | invalidValue
  | valueOverflow
  | invalidDimensions
  | invalidColorType
  | invalidPixelDepth
  | invalidSignature
  deriving DecidableEq

/-! ## Header (`src/compression/format.rs`) -/

inductive ColorType where
  | gray
  | rgb
  deriving DecidableEq

inductive PixelDepth where
  | eight
  | sixteen
  deriving DecidableEq

structure Header where
  color_type : ColorType
  pixel_depth : PixelDepth
  width : Nat
  height : Nat
  deriving DecidableEq

/-! ## Predictor

`src/compression/misc/mod.rs` contains the coordinate version
`nearest_neighbours((x, y), img)`; it asserts `img.in_bounds(x, y)` (we only
ever state facts about in-bounds positions, where the assertion passes).
`compress_channel`/`decompress_channel` call an index-based variant
`nearest_neighbours(i, width)` whose source is not part of the provided
tree; it is modelled from the spec below. -/

/-- Model of `misc::nearest_neighbours` (coordinate version), with
`in_bounds(a, b) = a < w && b < h`. -/
def nearest_neighbours (w h : Nat) (x y : Nat) : Option ((Nat × Nat) × (Nat × Nat)) :=
  if 0 < x ∧ 0 < y then some ((x - 1, y), (x, y - 1))
  else if y = 0 then
    if 2 ≤ x then some ((x - 1, y), (x - 2, y)) else none
  else
    if 2 ≤ y then some ((x, y - 1), (x, y - 2))
    else if (x < w ∧ y - 1 < h) ∧ (x + 1 < w ∧ y - 1 < h) then
      some ((x, y - 1), (x + 1, y - 1))
    else none

/-- Modelled from the spec: the index-based `nearest_neighbours(i, width)`
called by `compress_channel`/`decompress_channel` is absent from the
provided sources.  Spec §4.6 gives: for `x > 0, y > 0` the pair
`(i - 1, i - W)`; for `y = 0` the pair `(i - 1, i - 2)` when `x ≥ 2`, else
none; for `x = 0, y ≥ 1` the pair `(i - W, i - 2W)` when `y ≥ 2`, the pair
`(i - W, i - W + 1)` when `W ≥ 2`, else none. -/
def nearest_neighbours_idx (i w : Nat) : Option (Nat × Nat) :=
  let x := i % w
  let y := i / w
  if 0 < x ∧ 0 < y then some (i - 1, i - w)
  else if y = 0 then
    if 2 ≤ x then some (i - 1, i - 2) else none
  else
    if 2 ≤ y then some (i - w, i - 2 * w)
    else if 2 ≤ w then some (i - w, i - w + 1)
    else none

/-! ## Channel codec (`src/compression.rs`, `compress_channel` /
`decompress_channel`)

The channel is a `&[i32]`, modelled as `List Int` (theorems carry the
invariant that every entry is in the `i32` range).  `none` on the compress
side models a panic: the `checked_mul(..).unwrap()` on the dimensions, the
channel-length `assert!`, the estimator asserts, the `try_into().unwrap()`
on a context or residual that exceeds `i32`/`u32` bounds (both debug-mode
overflow and release-mode wrap end in a panic there), and the
`PhaseInCoder`/`RiceCoder` constructor panics.  On the decompress side
panics and `DecompressionError` results are kept apart. -/

/-- One iteration of the raster-scan loop of `compress_channel`, for pixel
value `p` whose coded neighbours have values `v1` and `v2`. -/
def compressPixel (est : KEstimator) (p v1 v2 : Int) : Option (List Bool × KEstimator) :=
  let h := max v1 v2
  let l := min v1 v2
  if 2 ^ 31 ≤ h - l then none
  else
    let context := (h - l).toNat
    match est.get_k context with
    | none => none
    | some k =>
      match RiceCoder.new k with
      | none => none
      | some rice_coder =>
        if l ≤ p ∧ p ≤ h then
          match PhaseInCoder.new (context + 1) with
          | none => none
          | some phase_in_coder =>
            match phase_in_coder.encode (p - l).toNat with
            | none => none
            | some bits => some (encode_intensity .inRange ++ bits, est)
        else if p < l then
          if 2 ^ 31 ≤ l - p - 1 then none
          else
            let to_encode := (l - p - 1).toNat
            match est.update context to_encode with
            | none => none
            | some est' =>
              some (encode_intensity .belowRange ++ rice_coder.encode to_encode, est')
        else
          if 2 ^ 31 ≤ p - h - 1 then none
          else
            let to_encode := (p - h - 1).toNat
            match est.update context to_encode with
            | none => none
            | some est' =>
              some (encode_intensity .aboveRange ++ rice_coder.encode to_encode, est')

/-- The `for i in 2..total_size` loop of `compress_channel`; `fuel` is the
number of remaining pixels. -/
def compressLoop (chan : List Int) (w : Nat) :
    Nat → Nat → KEstimator → Option (List Bool × KEstimator)
  | _, 0, est => some ([], est)
  | i, fuel + 1, est =>
    match nearest_neighbours_idx i w with
    | none => none
    | some (a, b) =>
      match compressPixel est (chan.getD i 0) (chan.getD a 0) (chan.getD b 0) with
      | none => none
      | some (bits, est') =>
        match compressLoop chan w (i + 1) fuel est' with
        | none => none
        | some (rest, est'') => some (bits ++ rest, est'')

/-- Model of `compress_channel`. -/
def compress_channel (chan : List Int) (width height : Nat)
    (options : CodingOptions) : Option (List Bool) :=
  if 2 ^ 32 ≤ width * height then none
  else if chan.length < width * height then none
  else if width = 0 ∨ height = 0 then some (writeSigned32 0 ++ writeSigned32 0)
  else if width = 1 ∧ height = 1 then
    some (writeSigned32 (chan.getD 0 0) ++ writeSigned32 0)
  else
    match KEstimator.new options.max_context options.k_values
        options.periodic_count_scaling with
    | none => none
    | some estimator =>
      match compressLoop chan width 2 (width * height - 2) estimator with
      | none => none
      | some (bits, _) =>
        some (writeSigned32 (chan.getD 0 0) ++ writeSigned32 (chan.getD 1 0) ++ bits)

/-- Outcome of one decoded pixel. -/
inductive PixelResult where
  | ok (p : Int) (est : KEstimator) (rest : List Bool)
  | err (e : DecompressionError)
  | panicked
  deriving DecidableEq

/-- Outcome of `decompress_channel`: the decoded channel plus the unread
remainder of the stream, a `DecompressionError`, or a panic. -/
inductive ChannelResult where
  | ok (channel : List Int) (rest : List Bool)
  | err (e : DecompressionError)
  | panicked
  deriving DecidableEq

/-- One iteration of the raster-scan loop of `decompress_channel`, for a
pixel whose already-decoded neighbours have values `v1` and `v2`. -/
def decompressPixel (est : KEstimator) (v1 v2 : Int) (s : List Bool) : PixelResult :=
  let h := max v1 v2
  let l := min v1 v2
  if 2 ^ 31 ≤ h - l then .panicked
  else
    let context := (h - l).toNat
    match est.get_k context with
    | none => .panicked
    | some k =>
      match RiceCoder.new k with
      | none => .panicked
      | some rice_coder =>
        match decode_intensity s with
        | none => .err .ioError
        | some (.inRange, s1) =>
          match PhaseInCoder.new (context + 1) with
          | none => .panicked
          | some phase_in_coder =>
            match phase_in_coder.decode s1 with
            | none => .err .ioError
            | some (pn, s2) =>
              if 2 ^ 31 ≤ pn then .err .invalidValue
              else if (pn : Int) + l < -(2 ^ 31) ∨ 2 ^ 31 - 1 < (pn : Int) + l then
                .err .valueOverflow
              else .ok ((pn : Int) + l) est s2
        | some (.belowRange, s1) =>
          match rice_coder.decode s1 with
          | .eof => .err .ioError
          | .panicOverflow => .panicked
          | .ok encoded s2 =>
            match est.update context encoded with
            | none => .panicked
            | some est' =>
              if 2 ^ 31 ≤ encoded then .err .invalidValue
              else if l - (encoded : Int) < -(2 ^ 31) ∨ 2 ^ 31 - 1 < l - (encoded : Int) then
                .err .valueOverflow
              else if l - (encoded : Int) - 1 < -(2 ^ 31) ∨
                  2 ^ 31 - 1 < l - (encoded : Int) - 1 then
                .err .valueOverflow
              else .ok (l - (encoded : Int) - 1) est' s2
        | some (.aboveRange, s1) =>
          match rice_coder.decode s1 with
          | .eof => .err .ioError
          | .panicOverflow => .panicked
          | .ok encoded s2 =>
            match est.update context encoded with
            | none => .panicked
            | some est' =>
              if 2 ^ 31 ≤ encoded then .err .invalidValue
              else if (encoded : Int) + h < -(2 ^ 31) ∨ 2 ^ 31 - 1 < (encoded : Int) + h then
                .err .valueOverflow
              else if (encoded : Int) + h + 1 < -(2 ^ 31) ∨
                  2 ^ 31 - 1 < (encoded : Int) + h + 1 then
                .err .valueOverflow
              else .ok ((encoded : Int) + h + 1) est' s2

/-- The `for i in 2..total_size` loop of `decompress_channel`; `buf` is the
already-decoded prefix (the Rust code reads only indices `< i` of its
zero-initialised buffer, so the prefix view is equivalent). -/
def decompressLoop (w : Nat) : Nat → List Int → KEstimator → List Bool → ChannelResult
  | 0, buf, _, s => .ok buf s
  | fuel + 1, buf, est, s =>
    match nearest_neighbours_idx buf.length w with
    | none => .panicked
    | some (a, b) =>
      match decompressPixel est (buf.getD a 0) (buf.getD b 0) s with
      | .err e => .err e
      | .panicked => .panicked
      | .ok p est' s' => decompressLoop w fuel (buf ++ [p]) est' s'

/-- Model of `decompress_channel`.  Note the first two 32-bit literals are
read before the dimension match, exactly as in the source. -/
def decompress_channel (width height : Nat) (options : CodingOptions)
    (s : List Bool) : ChannelResult :=
  match readSigned32 s with
  | none => .err .ioError
  | some (pixel1, s1) =>
    match readSigned32 s1 with
    | none => .err .ioError
    | some (pixel2, s2) =>
      if width = 0 ∨ height = 0 then .ok [] s2
      else if width = 1 ∧ height = 1 then .ok [pixel1] s2
      else if 2 ^ 32 ≤ width * height then .err .invalidDimensions
      else
        match KEstimator.new options.max_context options.k_values
            options.periodic_count_scaling with
        | none => .panicked
        | some estimator =>
          decompressLoop width (width * height - 2) [pixel1, pixel2] estimator s2

/-- Byte alignment with zero bits (`BitWriter::byte_align`), applied once at
the end of the image-level bitstream. -/
def byte_align (bits : List Bool) : List Bool :=
  bits ++ List.replicate ((8 - bits.length % 8) % 8) false

/-- Model of `ImageBuffer<Luma<u8>>::compress` minus the byte-level header
serialisation: the 14-byte header is kept structurally, the payload is the
single channel's bitstream, byte-aligned with zero bits. -/
def compressGray8 (width height : Nat) (pixels : List Nat) :
    Option (Header × List Bool) :=
  match compress_channel (pixels.map (fun p => (p : Int))) width height u8Options with
  | none => none
  | some bits => some (⟨.gray, .eight, width, height⟩, byte_align bits)

/-! ## Helper facts about truncating division by two -/

theorem tdiv_two_eq (a : Int) :
    a.tdiv 2 = if 0 ≤ a then a / 2 else -(-a / 2) := by
  split
  · exact Int.tdiv_eq_ediv (by assumption) (by norm_num)
  · have hneg : (0 : Int) ≤ -a := by omega
    have h := Int.neg_tdiv (-a) 2
    rw [neg_neg] at h
    rw [h, Int.tdiv_eq_ediv hneg (by norm_num)]

theorem tdiv_two_bounds (a : Int) :
    (0 ≤ a → 0 ≤ a.tdiv 2 ∧ 2 * a.tdiv 2 ≤ a ∧ a ≤ 2 * a.tdiv 2 + 1) ∧
    (a ≤ 0 → a.tdiv 2 ≤ 0 ∧ a ≤ 2 * a.tdiv 2 ∧ 2 * a.tdiv 2 - 1 ≤ a) := by
  rw [tdiv_two_eq]
  split <;> omega

/-- Inverse-of-forward for the colour transform, unconditionally: the
truncation terms cancel syntactically. -/
theorem ycocg_to_rgb_rgb_to_ycocg (r g b : Int) :
    ycocg_to_rgb (rgb_to_ycocg r g b).1 (rgb_to_ycocg r g b).2.1
      (rgb_to_ycocg r g b).2.2 = (r, g, b) := by
  unfold rgb_to_ycocg ycocg_to_rgb
  simp only [Prod.mk.injEq]
  refine ⟨?_, ?_, ?_⟩ <;> ring

/-- C5: the YCoCg-R transform of `color_transform.rs` is bit-exactly
reversible: for every (R,G,B) with each component in `[0, 2^depth - 1]`,
`ycocg_to_rgb` applied to `rgb_to_ycocg (R,G,B)` returns exactly (R,G,B). -/
theorem claim_C5_color_transform_reversible (depth : Nat) (r g b : Int)
    (hr : 0 ≤ r ∧ r ≤ 2 ^ depth - 1) (hg : 0 ≤ g ∧ g ≤ 2 ^ depth - 1)
    (hb : 0 ≤ b ∧ b ≤ 2 ^ depth - 1) :
    ycocg_to_rgb (rgb_to_ycocg r g b).1 (rgb_to_ycocg r g b).2.1
      (rgb_to_ycocg r g b).2.2 = (r, g, b) :=
  ycocg_to_rgb_rgb_to_ycocg r g b

/-- Witness for C5 at the 16-bit triple of the spec's Scenario E. -/
theorem claim_C5_witness :
    ycocg_to_rgb (rgb_to_ycocg 1726 12640 26649).1 (rgb_to_ycocg 1726 12640 26649).2.1
      (rgb_to_ycocg 1726 12640 26649).2.2 = (1726, 12640, 26649) :=
  claim_C5_color_transform_reversible 16 1726 12640 26649
    (by norm_num) (by norm_num) (by norm_num)

/-- The forward transform as the claim C6 states it, with `>> 1` as an
arithmetic right shift, i.e. floor division by two (`Int.fdiv`), rounding
toward negative infinity also for negative operands.  This definition
follows the claim's words, to be compared against `rgb_to_ycocg`. -/
def rgb_to_ycocg_floor_spec (r g b : Int) : Int × Int × Int :=
  let co := r - b
  let t := b + Int.fdiv co 2
  let cg := g - t
  let y := t + Int.fdiv cg 2
  (y, co, cg)

/-- Counterexample to C6: at (R,G,B) = (0,0,1) the code computes
(Y,Co,Cg) = (1,-1,-1) (truncating division), while the claimed floor-shift
semantics give (0,-1,0). -/
theorem claim_C6_counterexample :
    rgb_to_ycocg 0 0 1 = (1, -1, -1) ∧ rgb_to_ycocg_floor_spec 0 0 1 = (0, -1, 0) ∧
      rgb_to_ycocg 0 0 1 ≠ rgb_to_ycocg_floor_spec 0 0 1 := by
  refine ⟨by decide, by decide, by decide⟩

/-- The forward transform as amended: the halving steps use Rust's `/ 2`,
which truncates toward zero — floor division of the absolute value, with
the sign restored.  Written independently of `Int.tdiv`. -/
def rgb_to_ycocg_trunc_spec (r g b : Int) : Int × Int × Int :=
  let co := r - b
  let t := b + (if 0 ≤ co then co / 2 else -(-co / 2))
  let cg := g - t
  let y := t + (if 0 ≤ cg then cg / 2 else -(-cg / 2))
  (y, co, cg)

/-- C6 amended: `rgb_to_ycocg` computes Co = R - B, t = B + Co/2,
Cg = G - t, Y = t + Cg/2 where the division truncates toward zero (it is
floor division only for nonnegative operands; for negative odd operands it
is floor + 1). -/
theorem claim_C6_amended_trunc_semantics (r g b : Int) :
    rgb_to_ycocg r g b = rgb_to_ycocg_trunc_spec r g b := by
  unfold rgb_to_ycocg rgb_to_ycocg_trunc_spec
  simp only [tdiv_two_eq]

/-! ## C8: Rice code lengths -/

/-- C8: for every `k` accepted by `RiceCoder::new` (that is, `k ≤ 31`) and
every `n ≤ 2^24`, `encode` emits exactly `(n >> k) + 1 + k` bits and
`code_length` returns exactly that count. -/
theorem claim_C8_rice_code_length (k n : Nat) (c : RiceCoder)
    (hc : RiceCoder.new k = some c) (hn : n ≤ 2 ^ 24) :
    (c.encode n).length = n / 2 ^ k + 1 + k ∧ c.code_length n = n / 2 ^ k + 1 + k := by
  unfold RiceCoder.new at hc
  by_cases hk : k ≤ 31
  · rw [if_pos hk] at hc
    cases hc
    refine ⟨RiceCoder.encode_length _ _, ?_⟩
    have hcl : RiceCoder.code_length ⟨k⟩ n = (n / 2 ^ k + 1 + k) % 2 ^ 32 := rfl
    rw [hcl]
    have hdiv : n / 2 ^ k ≤ n := Nat.div_le_self n _
    exact Nat.mod_eq_of_lt (by omega)
  · rw [if_neg hk] at hc
    cases hc

/-- Witness for C8 at `k = 4`, `n = 7` (5 bits, as in the spec's
Scenario A). -/
theorem claim_C8_witness :
    (RiceCoder.encode ⟨4⟩ 7).length = 7 / 2 ^ 4 + 1 + 4 ∧
      RiceCoder.code_length ⟨4⟩ 7 = 7 / 2 ^ 4 + 1 + 4 :=
  claim_C8_rice_code_length 4 7 ⟨4⟩ (by decide) (by norm_num)

/-! ## C3: the estimator's context-range asserts

`KEstimator::new(max_context, ..)` allocates rows for every context in
`0..=max_context` (that is, `max_context + 1` rows), but both `get_k` and
`update` begin with the strict `assert!(context < self.max_context)`: the
context `max_context` itself — reachable in the codec, since `H - L` can
equal `MAX_CONTEXT` ("the maximum possible difference between two pixel
intensities", traits.rs) — panics, while its table row sits unused. -/

set_option maxRecDepth 4000 in
/-- C3 (evaluating the code at the failing input): on an estimator built
with `max_context = 255` and the 8-bit candidate list, `get_k` and `update`
panic at context 255 even though the table has 256 rows; context 254 is
accepted. -/
theorem claim_C3_estimator_panics_at_max_context :
    ((KEstimator.new 255 [0, 1, 2, 3, 4, 5] (some 1024)).bind
        (fun e => e.get_k 255) = none) ∧
    ((KEstimator.new 255 [0, 1, 2, 3, 4, 5] (some 1024)).bind
        (fun e => e.update 255 0) = none) ∧
    ((KEstimator.new 255 [0, 1, 2, 3, 4, 5] (some 1024)).map
        (fun e => e.context_map.length) = some 256) ∧
    ((KEstimator.new 255 [0, 1, 2, 3, 4, 5] (some 1024)).bind
        (fun e => e.get_k 254) = some 0) := by
  refine ⟨by decide, by decide, by decide, by decide⟩

/-! ## C4: MaxContext in the transformed (YCoCg) domain -/

/-- Bounds of the forward transform on `[0, M]^3` inputs: Y stays in
`[0, M]` and Co, Cg stay in `[-M, M]`, so any per-channel context `H - L`
in the transformed domain is at most `2 * M`. -/
theorem rgb_to_ycocg_bounds (M r g b : Int) (hr : 0 ≤ r ∧ r ≤ M)
    (hg : 0 ≤ g ∧ g ≤ M) (hb : 0 ≤ b ∧ b ≤ M) :
    (0 ≤ (rgb_to_ycocg r g b).1 ∧ (rgb_to_ycocg r g b).1 ≤ M) ∧
    (-M ≤ (rgb_to_ycocg r g b).2.1 ∧ (rgb_to_ycocg r g b).2.1 ≤ M) ∧
    (-M ≤ (rgb_to_ycocg r g b).2.2 ∧ (rgb_to_ycocg r g b).2.2 ≤ M) := by
  have h1 := tdiv_two_bounds (r - b)
  have h2 := tdiv_two_bounds (g - (b + (r - b).tdiv 2))
  unfold rgb_to_ycocg
  simp only
  refine ⟨⟨?_, ?_⟩, ⟨?_, ?_⟩, ⟨?_, ?_⟩⟩ <;> omega

/-- Transformed-domain contexts never exceed `2 * (2^depth - 1)`: the bound
the claim (and the repo's own colour-transform test) demands of the per-type
`MAX_CONTEXT` used by the RGB path. -/
theorem rgb_to_ycocg_context_le (depth : Nat) (r₁ g₁ b₁ r₂ g₂ b₂ : Int)
    (h₁ : (0 ≤ r₁ ∧ r₁ ≤ 2 ^ depth - 1) ∧ (0 ≤ g₁ ∧ g₁ ≤ 2 ^ depth - 1) ∧
      (0 ≤ b₁ ∧ b₁ ≤ 2 ^ depth - 1))
    (h₂ : (0 ≤ r₂ ∧ r₂ ≤ 2 ^ depth - 1) ∧ (0 ≤ g₂ ∧ g₂ ≤ 2 ^ depth - 1) ∧
      (0 ≤ b₂ ∧ b₂ ≤ 2 ^ depth - 1)) :
    ((rgb_to_ycocg r₁ g₁ b₁).1 - (rgb_to_ycocg r₂ g₂ b₂).1 ≤ 2 * (2 ^ depth - 1)) ∧
    ((rgb_to_ycocg r₁ g₁ b₁).2.1 - (rgb_to_ycocg r₂ g₂ b₂).2.1 ≤ 2 * (2 ^ depth - 1)) ∧
    ((rgb_to_ycocg r₁ g₁ b₁).2.2 - (rgb_to_ycocg r₂ g₂ b₂).2.2 ≤ 2 * (2 ^ depth - 1)) := by
  obtain ⟨hr₁, hg₁, hb₁⟩ := h₁
  obtain ⟨hr₂, hg₂, hb₂⟩ := h₂
  have hb₁' := rgb_to_ycocg_bounds (2 ^ depth - 1) r₁ g₁ b₁ hr₁ hg₁ hb₁
  have hb₂' := rgb_to_ycocg_bounds (2 ^ depth - 1) r₂ g₂ b₂ hr₂ hg₂ hb₂
  omega

/-- C4 (evaluating the code at the failing input): the per-type options the
RGB path passes to the channel codec carry `max_context = 255`
(`u8::MAX_CONTEXT` in traits.rs), not `2 * (2^8 - 1) = 510`; the Co
context 510 arises from the valid pixels (255,0,0) and (0,0,255) and the
estimator built from these options panics on it. -/
theorem claim_C4_rgb_max_context_mismatch :
    (u8Options.max_context = 255 ∧ u8Options.max_context ≠ 2 * (2 ^ 8 - 1)) ∧
    ((rgb_to_ycocg 255 0 0).2.1 - (rgb_to_ycocg 0 0 255).2.1 = 510) ∧
    ((KEstimator.new u8Options.max_context u8Options.k_values
        u8Options.periodic_count_scaling).bind (fun e => e.get_k 510) = none) := by
  refine ⟨⟨by decide, by decide⟩, by decide, by decide⟩

/-! ## C10: the predictor table -/

/-- The neighbour table exactly as claim C10 states it. -/
def predictor_spec_table (w : Nat) (x y : Nat) : Option ((Nat × Nat) × (Nat × Nat)) :=
  if 0 < x ∧ 0 < y then some ((x - 1, y), (x, y - 1))
  else if y = 0 then
    if 2 ≤ x then some ((x - 1, y), (x - 2, y)) else none
  else
    if 2 ≤ y then some ((x, y - 1), (x, y - 2))
    else if 2 ≤ w then some ((x, y - 1), (x + 1, y - 1))
    else none

/-- C10: for every width, height and in-bounds position the coordinate
predictor of `misc/mod.rs` matches the claimed table, and it returns `none`
exactly for the first two pixels in raster order (`y * w + x < 2`). -/
theorem claim_C10_predictor_table (w h x y : Nat) (hx : x < w) (hy : y < h) :
    nearest_neighbours w h x y = predictor_spec_table w x y ∧
      (nearest_neighbours w h x y = none ↔ y * w + x < 2) := by
  constructor
  · unfold nearest_neighbours predictor_spec_table
    by_cases h1 : 0 < x ∧ 0 < y
    · rw [if_pos h1, if_pos h1]
    · rw [if_neg h1, if_neg h1]
      by_cases h2 : y = 0
      · rw [if_pos h2, if_pos h2]
      · rw [if_neg h2, if_neg h2]
        by_cases h3 : 2 ≤ y
        · rw [if_pos h3, if_pos h3]
        · rw [if_neg h3, if_neg h3]
          by_cases h4 : 2 ≤ w
          · rw [if_pos (by omega), if_pos h4]
          · rw [if_neg (by omega), if_neg h4]
  · unfold nearest_neighbours
    by_cases h1 : 0 < x ∧ 0 < y
    · rw [if_pos h1]
      simp only [reduceCtorEq, false_iff, not_lt]
      calc 2 ≤ w := by omega
        _ ≤ y * w := Nat.le_mul_of_pos_left w (by omega)
        _ ≤ y * w + x := Nat.le_add_right _ _
    · rw [if_neg h1]
      by_cases h2 : y = 0
      · subst h2
        rw [if_pos rfl]
        by_cases h3 : 2 ≤ x
        · rw [if_pos h3]
          simp only [reduceCtorEq, false_iff, not_lt]
          omega
        · rw [if_neg h3]
          simp only [true_iff]
          omega
      · rw [if_neg h2]
        by_cases h3 : 2 ≤ y
        · rw [if_pos h3]
          simp only [reduceCtorEq, false_iff, not_lt]
          calc 2 ≤ y := h3
            _ ≤ y * w := Nat.le_mul_of_pos_right y (by omega)
            _ ≤ y * w + x := Nat.le_add_right _ _
        · have hx0 : x = 0 := by omega
          have hy1 : y = 1 := by omega
          subst hx0; subst hy1
          rw [if_neg h3]
          by_cases h4 : 2 ≤ w
          · rw [if_pos (by omega)]
            simp only [reduceCtorEq, false_iff, not_lt]
            omega
          · rw [if_neg (by omega)]
            simp only [true_iff]
            omega

/-- Witness for C10 at the spec's Scenario F position (W,H) = (23,25),
(x,y) = (5,8). -/
theorem claim_C10_witness :
    nearest_neighbours 23 25 5 8 = predictor_spec_table 23 5 8 ∧
      (nearest_neighbours 23 25 5 8 = none ↔ 8 * 23 + 5 < 2) :=
  claim_C10_predictor_table 23 25 5 8 (by norm_num) (by norm_num)

/-! ## C7: phase-in codewords and round-trip

The unit test in `phase_in_coding.rs` prints codewords through
`BitWriterMock`, whose `write(bits, value)` emits the *least* significant
bit first — the reverse of the `BigEndian` `BitWriter` used by the actual
codec.  The claimed table `011, 110, 111, 00, 100, 101, 010` is the mock's
rendering; on the wire (MSB first) the n = 7 codewords in value order are
`101, 110, 111, 00, 010, 011, 100`. -/

theorem phaseInCoder_new_seven : PhaseInCoder.new 7 = some ⟨7, 2, 3, 1⟩ := by
  have hlog : Nat.log2 7 = 2 := by norm_num [Nat.log2]
  rw [PhaseInCoder.new_eq (by norm_num) (by norm_num), hlog]
  norm_num

/-- Counterexample to C7: the wire codeword of value 0 for n = 7 is `101`,
not the claimed `011`. -/
theorem claim_C7_counterexample :
    ((PhaseInCoder.new 7).bind (fun c => c.encode 0) = some [true, false, true]) ∧
      ((PhaseInCoder.new 7).bind (fun c => c.encode 0) ≠ some [false, true, true]) := by
  rw [phaseInCoder_new_seven]
  refine ⟨by decide, by decide⟩

/-- C7 as amended: encoding rotates by `x' = (x + (n - P_left)) mod n` and
decoding applies the inverse rotation; for n = 7 the seven wire codewords in
value order are `101, 110, 111, 00, 010, 011, 100` (the claimed strings are
their per-field bit reversals, as printed by the repository's LSB-first test
mock); and `decode (encode x) = x` for every n in [1, 2000] and
x in [0, n-1]. -/
theorem claim_C7_amended_codewords_roundtrip :
    ((List.range 7).map (fun x => (PhaseInCoder.new 7).bind (fun c => c.encode x)) =
      [some [true, false, true], some [true, true, false], some [true, true, true],
        some [false, false], some [false, true, false], some [false, true, true],
        some [true, false, false]]) ∧
    (∀ n x : Nat, ∀ c : PhaseInCoder, PhaseInCoder.new n = some c →
      c.rotate_right x = (x + (n - c.left_p)) % n ∧
        (x < n → c.rotate_left (c.rotate_right x) = x)) ∧
    (∀ n x : Nat, 1 ≤ n → n ≤ 2000 → x < n →
      ∀ (c : PhaseInCoder) (bits rest : List Bool), PhaseInCoder.new n = some c →
        c.encode x = some bits → c.decode (bits ++ rest) = some (x, rest)) := by
  refine ⟨?_, ?_, ?_⟩
  · simp only [phaseInCoder_new_seven, Option.bind_some]
    decide
  · intro n x c hc
    have h0 : n ≠ 0 := by
      intro h
      subst h
      simp [PhaseInCoder.new] at hc
    have h31 : n < 2 ^ 31 := by
      by_contra h
      unfold PhaseInCoder.new at hc
      rw [if_neg h0, if_pos (by omega)] at hc
      cases hc
    constructor
    · rw [PhaseInCoder.new_eq h0 h31] at hc
      obtain ⟨hl, _⟩ := Nat.log2_bounds h0
      cases hc
      unfold PhaseInCoder.rotate_right
      simp only
      congr 1
      omega
    · intro hx
      exact PhaseInCoder.rotate_left_rotate_right h0 h31 hc hx
  · intro n x h1 h2000 hx c bits rest hc hb
    exact PhaseInCoder.decode_encode_some (by omega) (by omega) hc hx hb rest

/-- Witness for the amended C7: decoding the codeword of value 3 for n = 7
(the short codeword `00`) returns 3 and leaves the rest of the stream. -/
theorem claim_C7_amended_witness :
    PhaseInCoder.decode ⟨7, 2, 3, 1⟩ ([false, false] ++ [true]) = some (3, [true]) :=
  claim_C7_amended_codewords_roundtrip.2.2 7 3 (by norm_num) (by norm_num) (by norm_num)
    ⟨7, 2, 3, 1⟩ [false, false] [true] phaseInCoder_new_seven (by decide)

/-! ## C9: failure modes during decompression -/

/-- Counterexample to C9: decompressing a 2-by-1 channel from an empty
stream — end of stream in the middle of the very first field — yields
`DecompressionError::IoError` (the wrapped `UnexpectedEof`), and the error
enum of `error.rs` has no `Truncated` variant at all. -/
theorem claim_C9_counterexample :
    decompress_channel 2 1 u8Options [] = .err .ioError := by decide

theorem readUnary_replicate_true (q : Nat) (rest : List Bool) :
    readUnary (List.replicate q true ++ (false :: rest)) = some (q, rest) := by
  have h := readUnary_writeUnary q rest
  rwa [writeUnary, List.append_assoc, List.singleton_append] at h

/-- C9 as amended: reaching end-of-stream mid-field makes the call fail with
`DecompressionError::IoError` (there is no `Truncated` variant), and a Rice
quotient whose product with `2^k` overflows 32 bits makes `decode` panic
(`checked_mul(..).unwrap()`) rather than return an error: here `k = 31` with
a unary quotient of 2, so `q * m = 2^32`. -/
theorem claim_C9_amended_eof_io_error_and_overflow_panic :
    (∀ (opts : CodingOptions) (w h : Nat), decompress_channel w h opts [] = .err .ioError) ∧
    ((RiceCoder.new 31).map
        (fun c => c.decode ([true, true, false] ++ List.replicate 31 false)) =
      some .panicOverflow) := by
  constructor
  · intro opts w h
    rfl
  · decide

/-! ## C2: the first-two-pixel literals

`compress_channel` writes the first two pixels with
`bitwrite.write_signed(i32::BITS, ..)` — 32-bit signed fields — for the
grayscale path as well, and `decompress_channel` reads them back with
`read_signed(i32::BITS)`.  A 1-by-1 8-bit image with pixel 243 therefore
encodes, after the header, to the 32-bit field of 243 followed by the
32-bit field of 0 (64 bits, already byte-aligned), not to a single 8-bit
field. -/

/-- Counterexample to C2: the payload of the 1-by-1 grayscale image with
pixel 243 is not the claimed 8 bits `11110011`. -/
theorem claim_C2_counterexample :
    (compressGray8 1 1 [243]).map (fun p => p.2) ≠
      some [true, true, true, true, false, false, true, true] := by decide

/-- C2 as amended: the first two pixels are transmitted as 32-bit signed
fields in the grayscale path too; the 1-by-1 image with pixel 243 encodes,
after the header, to the 32 bits of 243 followed by the 32 bits of 0, and
decodes back to 243. -/
theorem claim_C2_amended_literals_are_32bit :
    (compressGray8 1 1 [243] = some (⟨.gray, .eight, 1, 1⟩,
      List.replicate 24 false ++ [true, true, true, true, false, false, true, true] ++
        List.replicate 32 false)) ∧
    (decompress_channel 1 1 u8Options
        (List.replicate 24 false ++ [true, true, true, true, false, false, true, true] ++
          List.replicate 32 false) = .ok [243] []) := by
  refine ⟨by decide, by decide⟩

/-! ## C1: the round trip

`decompress(compress(I)) = I` fails on the code as a whole: compression
itself panics on images that realise the maximal context.  For the 3-by-1
8-bit grayscale image `[0, 255, 0]` the third pixel's neighbours are 255 and
0, so `context = 255 = MAX_CONTEXT`, and `KEstimator::get_k` hits its
strict `assert!(context < max_context)`. -/

/-- C1 (evaluating the code at the failing input): compressing the 3-by-1
8-bit grayscale image `[0, 255, 0]` panics, so no output exists for
decompression to invert. -/
theorem claim_C1_compress_panics_on_max_context :
    compressGray8 3 1 [0, 255, 0] = none := by decide

/-! ## Round trip of the channel codec

The claim's round-trip property does hold wherever compression completes:
`decompress_channel` inverts `compress_channel` on every channel of i32
values whenever the latter returns bits instead of panicking.  This section
proves that supporting fact, which isolates the estimator assert as the sole
obstruction to claim C1. -/

theorem PhaseInCoder.new_bounds {n : Nat} {c : PhaseInCoder}
    (hc : PhaseInCoder.new n = some c) : n ≠ 0 ∧ n < 2 ^ 31 := by
  unfold PhaseInCoder.new at hc
  by_cases h0 : n = 0
  · rw [if_pos h0] at hc
    cases hc
  · rw [if_neg h0] at hc
    by_cases h31 : 2 ^ 31 ≤ n
    · rw [if_pos h31] at hc
      cases hc
    · exact ⟨h0, by omega⟩

theorem getD_take {α : Type} (l : List α) (d : α) {i a : Nat} (h : a < i) :
    (l.take i).getD a d = l.getD a d := by
  rw [List.getD_eq_getElem?_getD, List.getD_eq_getElem?_getD, List.getElem?_take,
    if_pos h]

theorem take_append_getD {α : Type} (l : List α) (d : α) {i : Nat}
    (h : i < l.length) : l.take i ++ [l.getD i d] = l.take (i + 1) := by
  rw [List.take_succ, List.getElem?_eq_getElem h, List.getD_eq_getElem l d h]
  rfl

/-- For every index `i ≥ 2` of a channel of positive width, the modelled
index predictor returns two already-coded indices. -/
theorem nearest_neighbours_idx_spec {i w : Nat} (hw : 0 < w) (hi : 2 ≤ i) :
    ∃ a b, nearest_neighbours_idx i w = some (a, b) ∧ a < i ∧ b < i := by
  unfold nearest_neighbours_idx
  simp only
  have hx : i % w < w := Nat.mod_lt _ hw
  have hyx : w * (i / w) + i % w = i := Nat.div_add_mod i w
  generalize hq : i / w = y at hyx ⊢
  generalize hr : i % w = x at hx hyx ⊢
  by_cases h1 : 0 < x ∧ 0 < y
  · rw [if_pos h1]
    refine ⟨i - 1, i - w, rfl, ?_, ?_⟩ <;> omega
  · rw [if_neg h1]
    by_cases h2 : y = 0
    · subst h2
      rw [Nat.mul_zero, Nat.zero_add] at hyx
      rw [if_pos rfl, if_pos (by omega)]
      refine ⟨i - 1, i - 2, rfl, ?_, ?_⟩ <;> omega
    · rw [if_neg h2]
      by_cases h3 : 2 ≤ y
      · rw [if_pos h3]
        have h4 : w * 2 ≤ w * y := Nat.mul_le_mul_left w h3
        refine ⟨i - w, i - 2 * w, rfl, ?_, ?_⟩ <;> omega
      · have hy1 : y = 1 := by omega
        subst hy1
        rw [Nat.mul_one] at hyx
        have hx0 : x = 0 := by omega
        subst hx0
        rw [if_neg h3, if_pos (by omega)]
        refine ⟨i - w, i - w + 1, rfl, ?_, ?_⟩ <;> omega

/-- Decoding one pixel inverts encoding one pixel: if the encoder emitted
`bits` for pixel `p` (updating the estimator to `est'`), the decoder reads
`bits` back, reconstructs `p` exactly, and reaches the same estimator
state. -/
theorem decompressPixel_compressPixel {est est' : KEstimator} {p v1 v2 : Int}
    {bits : List Bool}
    (hp : -(2 ^ 31) ≤ p ∧ p < 2 ^ 31)
    (hv1 : -(2 ^ 31) ≤ v1 ∧ v1 < 2 ^ 31)
    (hv2 : -(2 ^ 31) ≤ v2 ∧ v2 < 2 ^ 31)
    (hc : compressPixel est p v1 v2 = some (bits, est')) (rest : List Bool) :
    decompressPixel est v1 v2 (bits ++ rest) = .ok p est' rest := by
  unfold compressPixel at hc
  unfold decompressPixel
  by_cases hov : (2 : Int) ^ 31 ≤ max v1 v2 - min v1 v2
  · rw [if_pos hov] at hc
    cases hc
  rw [if_neg hov] at hc
  rw [if_neg hov]
  simp only at hc ⊢
  cases hk : est.get_k ((max v1 v2 - min v1 v2).toNat) with
  | none => simp only [hk, reduceCtorEq] at hc
  | some k =>
  simp only [hk] at hc ⊢
  cases hrc : RiceCoder.new k with
  | none => simp only [hrc, reduceCtorEq] at hc
  | some rc =>
  simp only [hrc] at hc ⊢
  by_cases hin : min v1 v2 ≤ p ∧ p ≤ max v1 v2
  · rw [if_pos hin] at hc
    cases hpin : PhaseInCoder.new ((max v1 v2 - min v1 v2).toNat + 1) with
    | none => simp only [hpin, reduceCtorEq] at hc
    | some pic =>
    simp only [hpin] at hc ⊢
    cases henc : pic.encode ((p - min v1 v2).toNat) with
    | none => simp only [henc, reduceCtorEq] at hc
    | some pbits =>
    simp only [henc] at hc
    injection hc with hpair
    rw [Prod.mk.injEq] at hpair
    obtain ⟨hbits, hest⟩ := hpair
    subst hbits
    subst hest
    simp only [List.append_assoc, decode_encode_intensity]
    have hb := PhaseInCoder.new_bounds hpin
    have hxlt : (p - min v1 v2).toNat < (max v1 v2 - min v1 v2).toNat + 1 := by omega
    simp only [PhaseInCoder.decode_encode_some hb.1 hb.2 hpin hxlt henc rest]
    rw [if_neg (show ¬ 2 ^ 31 ≤ (p - min v1 v2).toNat by omega)]
    rw [if_neg (show ¬ (((p - min v1 v2).toNat : Int) + min v1 v2 < -(2 ^ 31) ∨
      2 ^ 31 - 1 < ((p - min v1 v2).toNat : Int) + min v1 v2) by omega)]
    rw [show (((p - min v1 v2).toNat : Int)) + min v1 v2 = p by omega]
  · rw [if_neg hin] at hc
    by_cases hbelow : p < min v1 v2
    · rw [if_pos hbelow] at hc
      by_cases hod : (2 : Int) ^ 31 ≤ min v1 v2 - p - 1
      · rw [if_pos hod] at hc
        cases hc
      rw [if_neg hod] at hc
      cases hupd : est.update ((max v1 v2 - min v1 v2).toNat)
          ((min v1 v2 - p - 1).toNat) with
      | none => simp only [hupd, reduceCtorEq] at hc
      | some est1 =>
      simp only [hupd] at hc
      injection hc with hpair
      rw [Prod.mk.injEq] at hpair
      obtain ⟨hbits, hest⟩ := hpair
      subst hbits
      subst hest
      simp only [List.append_assoc, decode_encode_intensity]
      have hv32 : ((min v1 v2 - p - 1).toNat) < 2 ^ 32 := by omega
      simp only [RiceCoder.decode_encode_ok rc hv32 rest]
      simp only [hupd]
      rw [if_neg (show ¬ 2 ^ 31 ≤ (min v1 v2 - p - 1).toNat by omega)]
      rw [if_neg (show ¬ (min v1 v2 - (((min v1 v2 - p - 1).toNat : Int)) < -(2 ^ 31) ∨
        2 ^ 31 - 1 < min v1 v2 - (((min v1 v2 - p - 1).toNat : Int))) by omega)]
      rw [if_neg (show ¬ (min v1 v2 - (((min v1 v2 - p - 1).toNat : Int)) - 1 < -(2 ^ 31) ∨
        2 ^ 31 - 1 < min v1 v2 - (((min v1 v2 - p - 1).toNat : Int)) - 1) by omega)]
      rw [show min v1 v2 - (((min v1 v2 - p - 1).toNat : Int)) - 1 = p by omega]
    · rw [if_neg hbelow] at hc
      by_cases hod : (2 : Int) ^ 31 ≤ p - max v1 v2 - 1
      · rw [if_pos hod] at hc
        cases hc
      rw [if_neg hod] at hc
      cases hupd : est.update ((max v1 v2 - min v1 v2).toNat)
          ((p - max v1 v2 - 1).toNat) with
      | none => simp only [hupd, reduceCtorEq] at hc
      | some est1 =>
      simp only [hupd] at hc
      injection hc with hpair
      rw [Prod.mk.injEq] at hpair
      obtain ⟨hbits, hest⟩ := hpair
      subst hbits
      subst hest
      simp only [List.append_assoc, decode_encode_intensity]
      have hv32 : ((p - max v1 v2 - 1).toNat) < 2 ^ 32 := by omega
      simp only [RiceCoder.decode_encode_ok rc hv32 rest]
      simp only [hupd]
      rw [if_neg (show ¬ 2 ^ 31 ≤ (p - max v1 v2 - 1).toNat by omega)]
      rw [if_neg (show ¬ ((((p - max v1 v2 - 1).toNat : Int)) + max v1 v2 < -(2 ^ 31) ∨
        2 ^ 31 - 1 < (((p - max v1 v2 - 1).toNat : Int)) + max v1 v2) by omega)]
      rw [if_neg (show ¬ ((((p - max v1 v2 - 1).toNat : Int)) + max v1 v2 + 1 < -(2 ^ 31) ∨
        2 ^ 31 - 1 < (((p - max v1 v2 - 1).toNat : Int)) + max v1 v2 + 1) by omega)]
      rw [show (((p - max v1 v2 - 1).toNat : Int)) + max v1 v2 + 1 = p by omega]

/-- The decode loop inverts the encode loop: starting from the same
estimator state with the already-decoded prefix `chan.take i`, decoding the
bits of pixels `i .. i+fuel-1` extends the prefix to `chan.take (i + fuel)`
and consumes exactly those bits. -/
theorem decompressLoop_compressLoop {chan : List Int} {w : Nat}
    (hvals : ∀ v ∈ chan, -(2 ^ 31) ≤ v ∧ v < 2 ^ 31) (hw : 0 < w) :
    ∀ (fuel i : Nat) (est est' : KEstimator) (bits rest : List Bool),
      2 ≤ i → i + fuel ≤ chan.length →
      compressLoop chan w i fuel est = some (bits, est') →
      decompressLoop w fuel (chan.take i) est (bits ++ rest) =
        .ok (chan.take (i + fuel)) rest := by
  intro fuel
  induction fuel with
  | zero =>
    intro i est est' bits rest hi hlen hc
    unfold compressLoop at hc
    injection hc with hpair
    rw [Prod.mk.injEq] at hpair
    obtain ⟨hbits, hest⟩ := hpair
    subst hbits
    subst hest
    unfold decompressLoop
    rw [List.nil_append, Nat.add_zero]
  | succ fuel ih =>
    intro i est est' bits rest hi hlen hc
    unfold compressLoop at hc
    obtain ⟨a, b, hnn, ha, hb⟩ := nearest_neighbours_idx_spec hw hi
    simp only [hnn] at hc
    cases hcp : compressPixel est (chan.getD i 0) (chan.getD a 0) (chan.getD b 0) with
    | none => simp only [hcp, reduceCtorEq] at hc
    | some pr =>
    obtain ⟨pbits, est1⟩ := pr
    simp only [hcp] at hc
    cases hcl : compressLoop chan w (i + 1) fuel est1 with
    | none => simp only [hcl, reduceCtorEq] at hc
    | some rr =>
    obtain ⟨rbits, est2⟩ := rr
    simp only [hcl] at hc
    injection hc with hpair
    rw [Prod.mk.injEq] at hpair
    obtain ⟨hbits, hest⟩ := hpair
    subst hbits
    subst hest
    unfold decompressLoop
    have hlt : i < chan.length := by omega
    have htl : (chan.take i).length = i := by
      rw [List.length_take]
      omega
    have hmem : ∀ {j : Nat}, j < chan.length →
        -(2 ^ 31) ≤ chan.getD j 0 ∧ chan.getD j 0 < 2 ^ 31 := by
      intro j hj
      rw [List.getD_eq_getElem chan 0 hj]
      exact hvals _ (List.getElem_mem hj)
    rw [htl]
    simp only [hnn]
    rw [getD_take chan 0 ha, getD_take chan 0 hb, List.append_assoc]
    simp only [decompressPixel_compressPixel (hmem hlt) (hmem (by omega)) (hmem (by omega))
      hcp (rbits ++ rest)]
    rw [take_append_getD chan 0 hlt]
    have hrec := ih (i + 1) est1 est2 rbits rest (by omega) (by omega) hcl
    rw [show i + 1 + fuel = i + (fuel + 1) by omega] at hrec
    exact hrec

/-- Round trip of the channel codec: whenever `compress_channel` returns a
bitstream instead of panicking, `decompress_channel` reads exactly that
bitstream back into the original channel. -/
theorem compress_decompress_channel {opts : CodingOptions} {chan : List Int}
    {w h : Nat} {bits : List Bool}
    (hvals : ∀ v ∈ chan, -(2 ^ 31) ≤ v ∧ v < 2 ^ 31)
    (hlen : chan.length = w * h)
    (hc : compress_channel chan w h opts = some bits) (rest : List Bool) :
    decompress_channel w h opts (bits ++ rest) = .ok chan rest := by
  have hz : (-(2 ^ 31) : Int) ≤ 0 := by norm_num
  have hz' : (0 : Int) < 2 ^ 31 := by norm_num
  unfold compress_channel at hc
  unfold decompress_channel
  by_cases hdim : 2 ^ 32 ≤ w * h
  · rw [if_pos hdim] at hc
    cases hc
  rw [if_neg hdim] at hc
  rw [if_neg (show ¬ chan.length < w * h by omega)] at hc
  by_cases hzero : w = 0 ∨ h = 0
  · rw [if_pos hzero] at hc
    injection hc with hbits
    subst hbits
    have hchan : chan = [] := by
      have hl0 : chan.length = 0 := by
        rcases hzero with hz0 | hz0 <;> subst hz0 <;> simp_all
      exact List.length_eq_zero.mp hl0
    subst hchan
    simp only [List.append_assoc, readSigned32_writeSigned32 hz hz']
    rw [if_pos hzero]
  rw [if_neg hzero] at hc
  by_cases hone : w = 1 ∧ h = 1
  · rw [if_pos hone] at hc
    injection hc with hbits
    subst hbits
    have hl1 : chan.length = 1 := by
      obtain ⟨h1, h2⟩ := hone
      rw [hlen, h1, h2]
    obtain ⟨c, rfl⟩ := List.length_eq_one.mp hl1
    have hcm : -(2 ^ 31) ≤ c ∧ c < 2 ^ 31 := hvals c (by simp)
    have hgd : ([c] : List Int).getD 0 0 = c := rfl
    rw [hgd]
    simp only [List.append_assoc, readSigned32_writeSigned32 hcm.1 hcm.2,
      readSigned32_writeSigned32 hz hz']
    rw [if_neg hzero, if_pos hone]
  rw [if_neg hone] at hc
  have hwh2 : 2 ≤ w * h := by
    have hw1 : 1 ≤ w := by omega
    have hh1 : 1 ≤ h := by omega
    by_cases hw2 : 2 ≤ w
    · calc 2 ≤ w := hw2
        _ ≤ w * h := Nat.le_mul_of_pos_right w (by omega)
    · have hh2 : 2 ≤ h := by
        rcases Nat.lt_or_ge h 2 with hlt | hge
        · exfalso
          exact hone ⟨by omega, by omega⟩
        · exact hge
      calc 2 ≤ h := hh2
        _ ≤ w * h := Nat.le_mul_of_pos_left h (by omega)
  cases hke : KEstimator.new opts.max_context opts.k_values
      opts.periodic_count_scaling with
  | none => simp only [hke, reduceCtorEq] at hc
  | some est0 =>
  simp only [hke] at hc
  cases hcl : compressLoop chan w 2 (w * h - 2) est0 with
  | none => simp only [hcl, reduceCtorEq] at hc
  | some rr =>
  obtain ⟨lbits, estF⟩ := rr
  simp only [hcl] at hc
  injection hc with hbits
  subst hbits
  have h0m : -(2 ^ 31) ≤ chan.getD 0 0 ∧ chan.getD 0 0 < 2 ^ 31 := by
    rw [List.getD_eq_getElem chan 0 (by omega)]
    exact hvals _ (List.getElem_mem _)
  have h1m : -(2 ^ 31) ≤ chan.getD 1 0 ∧ chan.getD 1 0 < 2 ^ 31 := by
    rw [List.getD_eq_getElem chan 0 (by omega)]
    exact hvals _ (List.getElem_mem _)
  simp only [List.append_assoc, readSigned32_writeSigned32 h0m.1 h0m.2,
    readSigned32_writeSigned32 h1m.1 h1m.2]
  rw [if_neg hzero, if_neg hone, if_neg hdim]
  have htake2 : [chan.getD 0 0, chan.getD 1 0] = chan.take 2 := by
    cases chan with
    | nil => simp at hlen; omega
    | cons c0 t =>
      cases t with
      | nil => simp at hlen; omega
      | cons c1 t2 => rfl
  rw [htake2]
  have hrec := decompressLoop_compressLoop hvals (by omega) (w * h - 2) 2 est0 estF
    lbits rest (by omega) (by omega) hcl
  rw [show 2 + (w * h - 2) = chan.length by omega, List.take_length] at hrec
  exact hrec

end Felics
